import Mathlib

/-
Verification development for the NoGo board engine (board.py, board_util.py,
gtp_connection.py).  The Python code is shallowly embedded: the padded 1-D
board array becomes a function `Nat → Nat`, the transposition-table dict
becomes a function from keys to `Option Nat`, and the recursive solver is
modelled with an explicit fuel argument (the real recursion consumes one
frontier element per level, so `frontier.length + 1` fuel is always enough;
`runGetOutcome` supplies exactly that).  Python exceptions (a KeyError from
the `non_border_neighbors` dict) surface as `none` results.  Transposition
keys, which the Python code builds as strings of one digit per stone value,
are modelled as `List Nat` of those values; this is faithful because every
stone value is a single digit (0..3).
-/

/-- Stone values from board_base.py (modelled from the spec: board_base.py is
not part of the sources; the spec fixes Empty/Black/White/Border). -/
abbrev EMPTY : Nat := 0

abbrev BLACK : Nat := 1

abbrev WHITE : Nat := 2

abbrev BORDER : Nat := 3

/-- The board array: index (a point of the padded 1-D grid) to stone value. -/
abbrev Board := Nat → Nat

/-- Write one array cell, `self.board[point] = v`. -/
def setPt (b : Board) (p v : Nat) : Board := fun q => if q = p then v else b q

/-- Size of the padded 1-D array (modelled from the spec: board_base.py's
`board_array_size(size)`; the grid is conceptually (N+2) x (N+2) rows of
width N+1 plus one trailing cell). -/
def boardArraySize (n : Nat) : Nat := n * n + 3 * (n + 1)

/-- The point of row r, column c (modelled from the spec: board_base.py's
`coord_to_point`, with NS = size + 1 as in `GoBoard.reset`). -/
def coordToPoint (row col n : Nat) : Nat := row * (n + 1) + col

/-- The interior point of 0-based row i, column j (rows/cols 1..n of the
padded grid). -/
def ptN (n i j : Nat) : Nat := (i + 1) * (n + 1) + (j + 1)

/-- One step of `_initialize_empty_points`: overwrite the cells
start..start+len-1 with EMPTY. -/
def rowFill (b : Board) (start len : Nat) : Board :=
  fun p => if start ≤ p ∧ p < start + len then EMPTY else b p

/-- The board after `reset` has processed rows 1..r: `np.full(..., BORDER)`
followed by the row fills of `_initialize_empty_points`. -/
def resetRows (n : Nat) : Nat → Board
  | 0 => fun _ => BORDER
  | r + 1 => rowFill (resetRows n r) ((r + 1) * (n + 1) + 1) n

/-- The freshly reset board of size n: BORDER everywhere except rows 1..n,
columns 1..n, which are EMPTY (`GoBoard.reset` + `_initialize_empty_points`).
The Python loop fills rows 1..size in ascending order; the fills touch
disjoint ranges, so folding them in any order gives the same array. -/
def initBoard (n : Nat) : Board := resetRows n n

/-- The keys of `non_border_neighbors` in insertion order, equal to
`self.non_border_points`: all points of `range(maxpoint)` that are EMPTY on
the freshly reset board. -/
def nonBorderPoints (n : Nat) : List Nat :=
  (List.range (boardArraySize n)).filter (fun p => initBoard n p == EMPTY)

/-- The value stored for a point in `non_border_neighbors`: the four raw
neighbors `[p-1, p+1, p-NS, p+NS]` of `_neighbors`, keeping those that are
EMPTY on the freshly reset board (i.e. the non-border ones). -/
def nbrsOf (n p : Nat) : List Nat :=
  [p - 1, p + 1, p - (n + 1), p + (n + 1)].filter (fun q => initBoard n q == EMPTY)

/-- The dict lookup `self.non_border_neighbors[point]`: `some` of the stored
neighbor list for a key (a non-border point), `none` (a KeyError) otherwise. -/
def nonBorderNbrs (n p : Nat) : Option (List Nat) :=
  if p < boardArraySize n ∧ initBoard n p = EMPTY then some (nbrsOf n p) else none

/-- Model of `depth_first_liberty_search_simple(visited, stone, color)`.  The Python
for-loop with its early returns is folded with a done-flag accumulator
`(found, visited)`; once `found` is true the remaining iterations are
no-ops, exactly like the Python `return` that skips them.  The fuel
argument stands for the implicit recursion bound: every nested call adds a
new stone to `visited`, so `boardArraySize n` fuel (one per point of the
array) is never exhausted. -/
def dfsS (n : Nat) (b : Board) (color : Nat) : Nat → List Nat → Nat → Bool × List Nat
  | 0, visited, _ => (false, visited)
  | fuel + 1, visited, stone =>
    (nbrsOf n stone).foldl
      (fun acc nb =>
        if acc.1 then acc
        else if nb ∈ acc.2 then acc
        else if b nb = EMPTY then (true, acc.2)
        else if b nb = color then
          let r := dfsS n b color fuel acc.2 nb
          if r.1 then (true, r.2) else (false, r.2)
        else acc)
      (false, List.insert stone visited)

/-- Model of `depth_first_liberty_search(visited, liberty_set, stone, color)` with the
same fold-with-flag treatment of the loop and the same fuel convention as
`dfsS`. -/
def dfsL (n : Nat) (b : Board) (color : Nat) :
    Nat → List Nat → List Nat → Nat → Bool × List Nat
  | 0, visited, _, _ => (false, visited)
  | fuel + 1, visited, libSet, stone =>
    if stone ∈ visited then (false, visited)
    else
      (nbrsOf n stone).foldl
        (fun acc nb =>
          if acc.1 then acc
          else if b nb = EMPTY then (true, acc.2)
          else if b nb = color then
            if nb ∈ libSet then (true, acc.2)
            else
              let r := dfsL n b color fuel acc.2 libSet nb
              if r.1 then (true, r.2) else (false, r.2)
          else acc)
        (false, List.insert stone visited)

/-- The same-color loop of `is_legal`: run `depth_first_liberty_search_simple`
from each not-yet-visited same-color neighbor, sharing `visited`, breaking as
soon as a liberty is found; the result is the final value of `is_liberty`. -/
def sameLoop (n : Nat) (b : Board) (color : Nat) (same : List Nat) : Bool :=
  (same.foldl
    (fun acc nb =>
      if acc.1 then acc
      else if nb ∈ acc.2 then acc
      else dfsS n b color (boardArraySize n) acc.2 nb)
    (false, ([] : List Nat))).1

/-- The opponent-capture loop of `is_legal`: for each opponent neighbor not
already known to sit in a liberty-bearing block, run
`depth_first_liberty_search` with a fresh `visited` and the shared
`liberty_set`; return false (illegal capture) as soon as a block without a
liberty is found, otherwise merge the visited stones into `liberty_set`. -/
def oppLoop (n : Nat) (b : Board) (oppColor : Nat) (oppos : List Nat) : Bool :=
  (oppos.foldl
    (fun (acc : Bool × List Nat) nb =>
      if acc.1 = false then acc
      else if nb ∈ acc.2 then acc
      else
        let r := dfsL n b oppColor (boardArraySize n) [] acc.2 nb
        if r.1 then (true, acc.2.union r.2) else (false, acc.2))
    (true, ([] : List Nat))).1

/-- Model of `GoBoard.is_legal(point, color)`.  Returns `some (verdict, board-after)`;
`none` is the KeyError raised when `point` is not a key of
`non_border_neighbors` (a border or out-of-grid point).  Note the Python
method never checks that `point` is EMPTY: it unconditionally writes `color`
into the cell and finally writes EMPTY back on every return path.  The
neighbor classification sets are modelled as duplicate-free lists in
encounter order (Python set iteration order is left unspecified; it affects
only the scan order of the searches, never the verdict). -/
def isLegal (n : Nat) (b : Board) (point color : Nat) : Option (Bool × Board) :=
  let opp := 3 - color
  let b1 := setPt b point color
  match nonBorderNbrs n point with
  | none => none
  | some nbrs =>
    let same := nbrs.filter (fun q => b1 q == color)
    let oppos := nbrs.filter (fun q => !(b1 q == color) && b1 q == opp)
    let empties :=
      nbrs.filter (fun q => !(b1 q == color) && !(b1 q == opp) && b1 q == EMPTY)
    let afterOpp : Option (Bool × Board) :=
      if oppos.isEmpty then some (true, setPt b1 point EMPTY)
      else if oppLoop n b1 opp oppos then some (true, setPt b1 point EMPTY)
      else some (false, setPt b1 point EMPTY)
    if empties.isEmpty then
      if same.isEmpty then some (false, setPt b1 point EMPTY)
      else if sameLoop n b1 color same then afterOpp
      else some (false, setPt b1 point EMPTY)
    else afterOpp

/-- The transposition table `self.tt`: a dict from keys (digit strings,
modelled as lists of stone values) to a winner color. -/
abbrev TT := List Nat → Option Nat

/-- The fresh empty dict. -/
def emptyTT : TT := fun _ => none

/-- One dict assignment `self.tt[key] = color`. -/
def updateTT (tt : TT) (k : List Nat) (c : Nat) : TT :=
  fun q => if q = k then some c else tt q

/-- A sequence of dict assignments, one per key, all with the same color. -/
def writeKeys (tt : TT) (ks : List (List Nat)) (c : Nat) : TT :=
  ks.foldl (fun t k => updateTT t k c) tt

/-- Python slice `l[start:start+k]`. -/
def sliceAt (l : List Nat) (start k : Nat) : List Nat := (l.drop start).take k

/-- Structural walker for a stride-k slice: keep the element when the skip
counter is 0 (then reset it to k-1), otherwise skip and decrement. -/
def takeEveryAux (k : Nat) : List Nat → Nat → List Nat
  | [], _ => []
  | a :: rest, 0 => a :: takeEveryAux k rest (k - 1)
  | _ :: rest, c + 1 => takeEveryAux k rest c

/-- Python slice `l[start::k]`: every k-th element from index start on. -/
def strideSlice (l : List Nat) (start k : Nat) : List Nat :=
  takeEveryAux k (l.drop start) 0

/-- Row i of `_initialize_tt_sub_arrays`'s first array:
`non_border_points[i*size:(i+1)*size]`. -/
def ttRowPts (n i : Nat) : List Nat := sliceAt (nonBorderPoints n) (i * n) n

/-- Row i of `_initialize_tt_sub_arrays`'s second array:
`non_border_points[i::size]`. -/
def ttColPts (n i : Nat) : List Nat := strideSlice (nonBorderPoints n) i n

/-- Value `temp1` of `set_tt_entry` for row i: the stone values along
`tt_sub_arrays[0][i]`. -/
def ttRowVals (n : Nat) (b : Board) (i : Nat) : List Nat := (ttRowPts n i).map b

/-- Value `temp2` of `set_tt_entry` for i: the stone values along
`tt_sub_arrays[1][i]`. -/
def ttColVals (n : Nat) (b : Board) (i : Nat) : List Nat := (ttColPts n i).map b

/-- Key `key1` of `set_tt_entry`: the concatenation of `temp1` over all rows. -/
def key1 (n : Nat) (b : Board) : List Nat :=
  ((List.range n).map (ttRowVals n b)).flatten

/-- Key `key2` of `set_tt_entry`: the concatenation of `temp1[::-1]` over all
rows. -/
def key2 (n : Nat) (b : Board) : List Nat :=
  ((List.range n).map (fun i => (ttRowVals n b i).reverse)).flatten

/-- Key `key3` of `set_tt_entry`: the concatenation of `temp2` over all i. -/
def key3 (n : Nat) (b : Board) : List Nat :=
  ((List.range n).map (ttColVals n b)).flatten

/-- Key `key4` of `set_tt_entry`: the concatenation of `temp2[::-1]` over all
i. -/
def key4 (n : Nat) (b : Board) : List Nat :=
  ((List.range n).map (fun i => (ttColVals n b i).reverse)).flatten

/-- The eight keys written by `set_tt_entry`, in assignment order. -/
def ttKeys (n : Nat) (b : Board) : List (List Nat) :=
  [key1 n b, key2 n b, key3 n b, key4 n b,
   (key1 n b).reverse, (key2 n b).reverse, (key3 n b).reverse, (key4 n b).reverse]

/-- Model of `GoBoard.set_tt_entry(color)`: write `color` under all eight keys. -/
def setTTEntry (n : Nat) (b : Board) (color : Nat) (tt : TT) : TT :=
  writeKeys tt (ttKeys n b) color

/-- The exact-arrangement key used by `get_tt_entry`: the stone values over
`non_border_points` in order. -/
def encKey (n : Nat) (b : Board) : List Nat := (nonBorderPoints n).map b

/-- Model of `GoBoard.get_tt_entry()`: `self.tt.get(key)` for the current
arrangement. -/
def getTTEntry (n : Nat) (b : Board) (tt : TT) : Option Nat := tt (encKey n b)

/-- The mutable state threaded through the solver: the board array, the
transposition table, and a counter of deadline checks performed so far (the
argument fed to the time oracle; `time.process_time()` advances between
checks, so the oracle is indexed by check number). -/
structure SState where
  board : Board
  tt : TT
  clock : Nat

/-- One iteration of the `for move in empty_points` loop of
`GtpConnection.get_outcome`, folded with an accumulator: `Sum.inl s` means
the loop is still running with solver state `s`, `Sum.inr r` means the
function already returned (`r = none` models an uncaught exception).
`child` is the recursive call with the opponent color. -/
def outcomeStep (n color : Nat) (frontier : List Nat)
    (child : List Nat → SState → Option (Option Nat × SState))
    (acc : SState ⊕ Option (Option Nat × SState)) (mv : Nat) :
    SState ⊕ Option (Option Nat × SState) :=
  match acc with
  | .inr r => .inr r
  | .inl s =>
    match isLegal n s.board mv color with
    | none => .inr none
    | some (legal, b1) =>
      if legal then
        let b2 := setPt b1 mv color
        match getTTEntry n b2 s.tt with
        | some w =>
          let b3 := setPt b2 mv EMPTY
          if w = color then
            .inr (some (some mv, ⟨b3, setTTEntry n b3 color s.tt, s.clock⟩))
          else .inl ⟨b3, s.tt, s.clock⟩
        | none =>
          match child (frontier.erase mv) ⟨b2, s.tt, s.clock⟩ with
          | none => .inr none
          | some (_, s2) =>
            match getTTEntry n s2.board s2.tt with
            | none => .inr (some (none, ⟨setPt s2.board mv EMPTY, s2.tt, s2.clock⟩))
            | some w2 =>
              if w2 = 0 then
                .inr (some (none, ⟨setPt s2.board mv EMPTY, s2.tt, s2.clock⟩))
              else if w2 = color then
                .inr (some (some mv,
                  ⟨setPt s2.board mv EMPTY,
                   setTTEntry n (setPt s2.board mv EMPTY) color s2.tt, s2.clock⟩))
              else .inl ⟨setPt s2.board mv EMPTY, s2.tt, s2.clock⟩
      else .inl ⟨b1, s.tt, s.clock⟩

/-- Model of `GtpConnection.get_outcome(color, empty_points, start_time)`.  Fuel is a
modelling device for the recursion (each recursive call removes one frontier
point, so any fuel above `frontier.length` behaves like the real function;
fuel 0 yields `none`, an unreachable artifact).  Returns
`some (move?, state)` for a normal return (`move?` is the winning move, or
`none` for the loss / timeout returns), and `none` for a propagated
exception.  Each call entry consults the time oracle once and bumps the
check counter; on timeout it returns immediately, writing nothing.  A stored
entry equal to 0 is treated like a missing one by the `if not winner` test
(Python falsiness); this program only ever stores 1 or 2.  The iteration
order of the Python set `empty_points` is modelled by the frontier list
order, and `empty_points_copy.remove(move)` becomes `List.erase`. -/
def getOutcome (n : Nat) (oracle : Nat → Bool) :
    Nat → Nat → List Nat → SState → Option (Option Nat × SState)
  | 0, _, _, _ => none
  | fuel + 1, color, frontier, st =>
    if oracle st.clock then some (none, ⟨st.board, st.tt, st.clock + 1⟩)
    else
      match frontier.foldl
          (outcomeStep n color frontier
            (fun f s => getOutcome n oracle fuel (3 - color) f s))
          (.inl ⟨st.board, st.tt, st.clock + 1⟩) with
      | .inl sEnd =>
        some (none, ⟨sEnd.board, setTTEntry n sEnd.board (3 - color) sEnd.tt, sEnd.clock⟩)
      | .inr r => r

/-- A `get_outcome` call with adequate fuel: this is the model of the actual
Python call. -/
def runGetOutcome (n : Nat) (oracle : Nat → Bool) (color : Nat)
    (frontier : List Nat) (st : SState) : Option (Option Nat × SState) :=
  getOutcome n oracle (frontier.length + 1) color frontier st

/-- A `GoBoard` object.  `ttOwn = none` models a board whose `tt` attribute
is the module-level default dict (the mutable default argument `tt: dict =
{}` of `__init__` is evaluated once, so every board constructed without an
explicit `tt` aliases that one object); `ttOwn = some t` models a board
given its own table. -/
structure GoBoardPy where
  size : Nat
  board : Board
  current_player : Nat
  ttOwn : Option TT

/-- The process-wide mutable store: the one shared default dict. -/
structure World where
  shared : TT

/-- Model of `GoBoard(size)`: reset to an empty board, current player BLACK, and the
default (shared) transposition table. -/
def mkGoBoard (n : Nat) : GoBoardPy :=
  ⟨n, initBoard n, BLACK, none⟩

/-- Model of `GoBoard.copy()`: constructs `GoBoard(self.size)` — hence the default
shared table — then copies the player and the board array. -/
def copyB (gb : GoBoardPy) : GoBoardPy :=
  ⟨gb.size, gb.board, gb.current_player, none⟩

/-- The dict a board's `self.tt` refers to, given the store. -/
def ttOf (gb : GoBoardPy) (w : World) : TT :=
  match gb.ttOwn with
  | none => w.shared
  | some t => t

/-- Lookup `get_tt_entry` through a board object. -/
def getTTEntryB (gb : GoBoardPy) (w : World) : Option Nat :=
  getTTEntry gb.size gb.board (ttOf gb w)

/-- Record `set_tt_entry` through a board object: mutates the dict the board refers
to (the shared one when the board was built without an explicit table). -/
def setTTEntryB (gb : GoBoardPy) (color : Nat) (w : World) : GoBoardPy × World :=
  match gb.ttOwn with
  | none => (gb, ⟨setTTEntry gb.size gb.board color w.shared⟩)
  | some t => ({ gb with ttOwn := some (setTTEntry gb.size gb.board color t) }, w)

/-- The stone values along grid row i (derived form of `temp1`). -/
def rowOf (n : Nat) (b : Board) (i : Nat) : List Nat :=
  (List.range n).map (fun j => b (ptN n i j))

/-- The stone values along grid column i (derived form of `temp2`). -/
def colOf (n : Nat) (b : Board) (i : Nat) : List Nat :=
  (List.range n).map (fun j => b (ptN n j i))

/-- The eight dihedral symmetries of the n x n grid as 0-based coordinate
maps: identity, the three further 90-degree rotations, and the left-right
mirror images of those four. -/
def dmap (n idx i j : Nat) : Nat × Nat :=
  match idx with
  | 0 => (i, j)
  | 1 => (n - 1 - j, i)
  | 2 => (n - 1 - i, n - 1 - j)
  | 3 => (j, n - 1 - i)
  | 4 => (i, n - 1 - j)
  | 5 => (j, i)
  | 6 => (n - 1 - i, j)
  | _ => (n - 1 - j, n - 1 - i)

/-- Invariant for the solver loop accumulator: the loop is either still
running with the original board array, or it already returned a state whose
board array is the original; the exception outcome never arises under the
hypotheses used below. -/
def boardKept (b0 : Board) : SState ⊕ Option (Option Nat × SState) → Prop
  | .inl s => s.board = b0
  | .inr none => False
  | .inr (some (_, s')) => s'.board = b0

/-- Writing a cell and reading it back. -/
theorem setPt_self (b : Board) (p v : Nat) : setPt b p v p = v := by
  simp [setPt]

/-- Writing a cell leaves the others unchanged. -/
theorem setPt_ne (b : Board) (p v q : Nat) (h : q ≠ p) : setPt b p v q = b q := by
  simp [setPt, h]

/-- Tentatively writing a stone on an EMPTY cell and then writing EMPTY back
restores the original array exactly. -/
theorem setPt_restore (b : Board) (p c : Nat) (h : b p = EMPTY) :
    setPt (setPt b p c) p EMPTY = b := by
  funext q
  by_cases hq : q = p
  · subst hq; simp [setPt, h]
  · simp [setPt, hq]

/-- Characterisation of the reset fills: a cell is EMPTY after processing rows
1..R exactly when it lies in the filled range of one of those rows. -/
theorem resetRows_zero_iff (n : Nat) (R : Nat) (p : Nat) :
    resetRows n R p = EMPTY ↔
      ∃ r, 1 ≤ r ∧ r ≤ R ∧ r * (n + 1) + 1 ≤ p ∧ p < r * (n + 1) + 1 + n := by
  induction R with
  | zero =>
    simp only [resetRows]
    constructor
    · intro h; exact absurd h (by simp [BORDER, EMPTY])
    · rintro ⟨r, h1, h2, -, -⟩; omega
  | succ R ih =>
    simp only [resetRows, rowFill]
    by_cases hin : (R + 1) * (n + 1) + 1 ≤ p ∧ p < (R + 1) * (n + 1) + 1 + n
    · simp only [if_pos hin]
      constructor
      · intro _; exact ⟨R + 1, by omega, by omega, hin.1, hin.2⟩
      · intro _; trivial
    · simp only [if_neg hin, ih]
      constructor
      · rintro ⟨r, h1, h2, h3, h4⟩; exact ⟨r, h1, by omega, h3, h4⟩
      · rintro ⟨r, h1, h2, h3, h4⟩
        refine ⟨r, h1, ?_, h3, h4⟩
        rcases Nat.lt_or_ge r (R + 1) with hr | hr
        · omega
        · exfalso
          have : r = R + 1 := by omega
          subst this
          exact hin ⟨h3, h4⟩

/-- A cell of the freshly reset board is EMPTY exactly when it is an interior
point `ptN n i j`. -/
theorem initBoard_zero_iff (n p : Nat) :
    initBoard n p = EMPTY ↔ ∃ i, i < n ∧ ∃ j, j < n ∧ p = ptN n i j := by
  rw [initBoard, resetRows_zero_iff]
  constructor
  · rintro ⟨r, h1, h2, h3, h4⟩
    refine ⟨r - 1, by omega, p - (r * (n + 1) + 1), by omega, ?_⟩
    have hr : r - 1 + 1 = r := by omega
    simp only [ptN, hr]
    omega
  · rintro ⟨i, hi, j, hj, rfl⟩
    refine ⟨i + 1, by omega, by omega, ?_, ?_⟩ <;> simp only [ptN] <;> omega

/-- Interior points fit inside the padded array. -/
theorem ptN_lt_size (n i j : Nat) (hi : i < n) (hj : j < n) :
    ptN n i j < boardArraySize n := by
  have h1 : (i + 1) * (n + 1) ≤ n * (n + 1) :=
    Nat.mul_le_mul_right _ (by omega)
  have h2 : n * (n + 1) = n * n + n := by ring
  simp only [ptN, boardArraySize]
  omega

/-- Membership in the `non_border_neighbors` key list. -/
theorem mem_nonBorderPoints (n p : Nat) :
    p ∈ nonBorderPoints n ↔ p < boardArraySize n ∧ initBoard n p = EMPTY := by
  simp [nonBorderPoints, List.mem_filter, List.mem_range]


/-- The `non_border_points` list in its explicit row-major form: rows 1..n of
the grid, each row listing its n interior points in column order. -/
theorem nonBorderPoints_eq (n : Nat) :
    nonBorderPoints n =
      ((List.range n).map (fun i => (List.range n).map (fun j => ptN n i j))).flatten := by
  have hs1 : (nonBorderPoints n).Pairwise (· < ·) :=
    List.Pairwise.sublist (List.filter_sublist _) (List.pairwise_lt_range _)
  have hs2 : (((List.range n).map
      (fun i => (List.range n).map (fun j => ptN n i j))).flatten).Pairwise (· < ·) := by
    rw [List.pairwise_flatten]
    constructor
    · intro l hl
      rw [List.mem_map] at hl
      obtain ⟨i, -, rfl⟩ := hl
      rw [List.pairwise_map]
      exact (List.pairwise_lt_range _).imp
        (fun {a b} hab => by simp only [ptN]; omega)
    · rw [List.pairwise_map]
      refine (List.pairwise_lt_range _).imp ?_
      intro i i' hii' x hx y hy
      rw [List.mem_map] at hx hy
      obtain ⟨j, hj, rfl⟩ := hx
      obtain ⟨j', -, rfl⟩ := hy
      rw [List.mem_range] at hj
      have h1 : (i + 1) * (n + 1) + (n + 1) = (i + 2) * (n + 1) := by ring
      have h2 : (i + 2) * (n + 1) ≤ (i' + 1) * (n + 1) :=
        Nat.mul_le_mul_right _ (by omega)
      simp only [ptN]
      omega
  have hnd1 : (nonBorderPoints n).Nodup := hs1.imp Nat.ne_of_lt
  have hnd2 := hs2.imp Nat.ne_of_lt
  have hmem : ∀ p, p ∈ nonBorderPoints n ↔
      p ∈ ((List.range n).map
        (fun i => (List.range n).map (fun j => ptN n i j))).flatten := by
    intro p
    rw [mem_nonBorderPoints, initBoard_zero_iff]
    simp only [List.mem_flatten, List.mem_map, List.mem_range]
    constructor
    · rintro ⟨-, i, hi, j, hj, rfl⟩
      exact ⟨_, ⟨i, hi, rfl⟩, by simp [List.mem_map, List.mem_range]; exact ⟨j, hj, rfl⟩⟩
    · rintro ⟨l, ⟨i, hi, rfl⟩, hp⟩
      rw [List.mem_map] at hp
      obtain ⟨j, hj, rfl⟩ := hp
      rw [List.mem_range] at hj
      exact ⟨ptN_lt_size n i j hi hj, i, hi, j, hj, rfl⟩
  haveI : IsAntisymm Nat (· < ·) :=
    ⟨fun a b h1 h2 => absurd h2 (Nat.lt_asymm h1)⟩
  exact List.eq_of_perm_of_sorted
    ((List.perm_ext_iff_of_nodup hnd1 hnd2).mpr hmem) hs1 hs2

/-- Slicing k elements at offset i*k out of a flattened list of k-length
blocks yields block i. -/
theorem sliceAt_flatten (k : Nat) :
    ∀ L : List (List Nat), (∀ l ∈ L, l.length = k) →
      ∀ i, i < L.length → sliceAt L.flatten (i * k) k = L.getD i [] := by
  intro L
  induction L with
  | nil => intro _ i hi; exact absurd hi (by simp)
  | cons l L ih =>
    intro hk i hi
    match i with
    | 0 =>
      simp only [Nat.zero_mul, sliceAt, List.drop_zero, List.flatten_cons,
        List.getD_cons_zero]
      exact List.take_left' (hk l (List.mem_cons_self _ _))
    | i + 1 =>
      have hl : l.length = k := hk l (List.mem_cons_self _ _)
      simp only [sliceAt, List.flatten_cons, List.getD_cons_succ]
      have harith : (i + 1) * k = l.length + i * k := by rw [hl]; ring
      rw [harith, ← List.drop_drop, List.drop_left]
      exact ih (fun x hx => hk x (List.mem_cons_of_mem _ hx)) i (by simpa using hi)

/-- The stride walker consumes a prefix no longer than its skip counter. -/
theorem takeEveryAux_skip (k : Nat) :
    ∀ (l rest : List Nat) (c : Nat), l.length ≤ c →
      takeEveryAux k (l ++ rest) c = takeEveryAux k rest (c - l.length) := by
  intro l
  induction l with
  | nil => intro rest c _; simp
  | cons a l ih =>
    intro rest c hc
    match c with
    | 0 => exact absurd hc (by simp)
    | c + 1 =>
      simp only [List.cons_append, takeEveryAux, List.append_eq]
      rw [ih rest c (by simpa using hc)]
      congr 1
      simp only [List.length_cons]
      omega

/-- Skipping c elements with the counter is dropping c elements first. -/
theorem takeEveryAux_drop (k : Nat) :
    ∀ (c : Nat) (l : List Nat), takeEveryAux k l c = takeEveryAux k (l.drop c) 0 := by
  intro c
  induction c with
  | zero => intro l; rw [List.drop_zero]
  | succ c ih =>
    intro l
    match l with
    | [] => simp [takeEveryAux]
    | a :: rest => simpa [takeEveryAux] using ih rest

/-- A stride-k slice at offset i of a flattened list of k-length blocks picks
the i-th element of every block. -/
theorem strideSlice_flatten (k i : Nat) (hik : i < k) :
    ∀ L : List (List Nat), (∀ l ∈ L, l.length = k) →
      takeEveryAux k (L.flatten.drop i) 0 = L.map (fun l => l.getD i 0) := by
  intro L
  induction L with
  | nil => intro _; simp [takeEveryAux]
  | cons l L ih =>
    intro hk
    have hl : l.length = k := hk l (List.mem_cons_self _ _)
    have hi' : i < l.length := by omega
    rw [List.flatten_cons, List.drop_append_eq_append_drop]
    have hzero : i - l.length = 0 := by omega
    rw [hzero, List.drop_zero, List.drop_eq_getElem_cons hi', List.cons_append]
    simp only [takeEveryAux]
    rw [takeEveryAux_skip k (l.drop (i + 1)) L.flatten (k - 1)
      (by simp only [List.length_drop]; omega)]
    have harith : k - 1 - (l.drop (i + 1)).length = i := by
      simp only [List.length_drop]; omega
    rw [harith, takeEveryAux_drop, ih (fun x hx => hk x (List.mem_cons_of_mem _ hx))]
    simp [List.getD_eq_getElem?_getD, List.getElem?_eq_getElem hi']

/-- Row i of `tt_sub_arrays[0]` is row i of the grid. -/
theorem ttRowPts_eq (n i : Nat) (hi : i < n) :
    ttRowPts n i = (List.range n).map (fun j => ptN n i j) := by
  rw [ttRowPts, nonBorderPoints_eq]
  rw [sliceAt_flatten n _
    (by intro l hl; rw [List.mem_map] at hl; obtain ⟨j, -, rfl⟩ := hl; simp)
    i (by simpa using hi)]
  rw [List.getD_eq_getElem?_getD, List.getElem?_map, List.getElem?_range hi]
  rfl

/-- Row i of `tt_sub_arrays[1]` is column i of the grid. -/
theorem ttColPts_eq (n i : Nat) (hi : i < n) :
    ttColPts n i = (List.range n).map (fun j => ptN n j i) := by
  rw [ttColPts, strideSlice, nonBorderPoints_eq]
  rw [strideSlice_flatten n i hi _
    (by intro l hl; rw [List.mem_map] at hl; obtain ⟨j, -, rfl⟩ := hl; simp)]
  rw [List.map_map]
  apply List.map_congr_left
  intro j hj
  rw [List.mem_range] at hj
  simp [List.getD_eq_getElem?_getD, List.getElem?_map, List.getElem?_range hi]

/-- Reversing a map over `range n` replays it with mirrored indices. -/
theorem reverse_map_range {α : Type} (f : Nat → α) (n : Nat) :
    ((List.range n).map f).reverse = (List.range n).map (fun j => f (n - 1 - j)) := by
  induction n with
  | zero => simp
  | succ n ih =>
    conv_lhs => rw [List.range_succ]
    conv_rhs => rw [List.range_succ_eq_map]
    rw [List.map_append, List.reverse_append]
    simp only [List.map_cons, List.map_nil, List.reverse_cons, List.reverse_nil,
      List.nil_append, List.singleton_append, List.map_map]
    rw [ih]
    congr 1
    apply List.map_congr_left
    intro j _
    simp only [Function.comp_apply]
    congr 1
    omega

/-- Reversing a flattened map over `range n` mirrors the block order and
reverses every block. -/
theorem flatten_map_range_reverse {α : Type} (f : Nat → List α) (n : Nat) :
    (((List.range n).map f).flatten).reverse =
      ((List.range n).map (fun i => (f (n - 1 - i)).reverse)).flatten := by
  rw [List.reverse_flatten, List.map_map, reverse_map_range]
  simp [Function.comp]

/-- Value `temp1` in its explicit row form. -/
theorem ttRowVals_eq (n : Nat) (b : Board) (i : Nat) (hi : i < n) :
    ttRowVals n b i = rowOf n b i := by
  rw [ttRowVals, ttRowPts_eq n i hi, List.map_map]
  rfl

/-- Value `temp2` in its explicit column form. -/
theorem ttColVals_eq (n : Nat) (b : Board) (i : Nat) (hi : i < n) :
    ttColVals n b i = colOf n b i := by
  rw [ttColVals, ttColPts_eq n i hi, List.map_map]
  rfl

/-- Key `key1` is the row-major encoding. -/
theorem key1_eq (n : Nat) (b : Board) :
    key1 n b = ((List.range n).map (rowOf n b)).flatten := by
  rw [key1]
  congr 1
  apply List.map_congr_left
  intro i hi
  exact ttRowVals_eq n b i (List.mem_range.mp hi)

/-- Key `key2` concatenates the reversed rows. -/
theorem key2_eq (n : Nat) (b : Board) :
    key2 n b = ((List.range n).map (fun i => (rowOf n b i).reverse)).flatten := by
  rw [key2]
  congr 1
  apply List.map_congr_left
  intro i hi
  rw [ttRowVals_eq n b i (List.mem_range.mp hi)]

/-- Key `key3` concatenates the columns. -/
theorem key3_eq (n : Nat) (b : Board) :
    key3 n b = ((List.range n).map (colOf n b)).flatten := by
  rw [key3]
  congr 1
  apply List.map_congr_left
  intro i hi
  exact ttColVals_eq n b i (List.mem_range.mp hi)

/-- Key `key4` concatenates the reversed columns. -/
theorem key4_eq (n : Nat) (b : Board) :
    key4 n b = ((List.range n).map (fun i => (colOf n b i).reverse)).flatten := by
  rw [key4]
  congr 1
  apply List.map_congr_left
  intro i hi
  rw [ttColVals_eq n b i (List.mem_range.mp hi)]

/-- The exact-arrangement key is the row-major encoding, i.e. `key1`. -/
theorem encKey_eq_key1 (n : Nat) (b : Board) : encKey n b = key1 n b := by
  rw [encKey, nonBorderPoints_eq, key1_eq, List.map_flatten, List.map_map]
  congr 1
  apply List.map_congr_left
  intro i _
  simp only [Function.comp_apply, List.map_map]
  rfl

/-- Looking up a key after a block of writes: hit if the key was written,
otherwise fall through to the previous table. -/
theorem writeKeys_apply (tt : TT) (ks : List (List Nat)) (c : Nat) (q : List Nat) :
    writeKeys tt ks c q = if q ∈ ks then some c else tt q := by
  induction ks generalizing tt with
  | nil => simp [writeKeys]
  | cons k ks ih =>
    rw [writeKeys, List.foldl_cons]
    rw [show (ks.foldl (fun t k => updateTT t k c) (updateTT tt k c)) =
      writeKeys (updateTT tt k c) ks c from rfl]
    rw [ih]
    by_cases hq : q ∈ ks
    · simp [hq]
    · by_cases hqk : q = k
      · simp [hq, hqk, updateTT]
      · simp [hq, hqk, updateTT]

/-- Reversing `key1` yields the rows in mirrored order, each reversed. -/
theorem key1_reverse (n : Nat) (b : Board) :
    (key1 n b).reverse =
      ((List.range n).map (fun i => (rowOf n b (n - 1 - i)).reverse)).flatten := by
  rw [key1_eq, flatten_map_range_reverse]

/-- Reversing `key2` yields the rows in mirrored order. -/
theorem key2_reverse (n : Nat) (b : Board) :
    (key2 n b).reverse =
      ((List.range n).map (fun i => rowOf n b (n - 1 - i))).flatten := by
  rw [key2_eq, flatten_map_range_reverse]
  simp [List.reverse_reverse]

/-- Reversing `key3` yields the columns in mirrored order, each reversed. -/
theorem key3_reverse (n : Nat) (b : Board) :
    (key3 n b).reverse =
      ((List.range n).map (fun i => (colOf n b (n - 1 - i)).reverse)).flatten := by
  rw [key3_eq, flatten_map_range_reverse]

/-- Reversing `key4` yields the columns in mirrored order. -/
theorem key4_reverse (n : Nat) (b : Board) :
    (key4 n b).reverse =
      ((List.range n).map (fun i => colOf n b (n - 1 - i))).flatten := by
  rw [key4_eq, flatten_map_range_reverse]
  simp [List.reverse_reverse]

/-- The exact-arrangement key of a board whose rows are described
pointwise. -/
theorem encKey_eq_of_rows (n : Nat) (bs : Board) (g : Nat → List Nat)
    (h : ∀ i, i < n → rowOf n bs i = g i) :
    encKey n bs = ((List.range n).map g).flatten := by
  rw [encKey_eq_key1, key1_eq]
  congr 1
  apply List.map_congr_left
  intro i hi
  exact h i (List.mem_range.mp hi)

/-- C3: after `set_tt_entry(c)` on board `b`, a `get_tt_entry` lookup on any
board `bs` whose interior stone arrangement is one of the 8 dihedral
symmetry images of `b`'s arrangement returns `c`. -/
theorem tt_symmetric_lookup_after_record (n : Nat) (b bs : Board) (c : Nat)
    (tt : TT) (idx : Nat) (hidx : idx < 8)
    (hrel : ∀ i, i < n → ∀ j, j < n →
      bs (ptN n i j) = b (ptN n (dmap n idx i j).1 (dmap n idx i j).2)) :
    getTTEntry n bs (setTTEntry n b c tt) = some c := by
  rw [getTTEntry, setTTEntry, writeKeys_apply]
  interval_cases idx
  · have hk : encKey n bs = key1 n b := by
      rw [key1_eq]
      apply encKey_eq_of_rows
      intro i hi
      rw [rowOf, rowOf]
      apply List.map_congr_left
      intro j hj
      rw [List.mem_range] at hj
      simpa [dmap] using hrel i hi j hj
    rw [hk]
    simp [ttKeys]
  · have hk : encKey n bs = key4 n b := by
      rw [key4_eq]
      apply encKey_eq_of_rows
      intro i hi
      rw [rowOf, colOf, reverse_map_range]
      apply List.map_congr_left
      intro j hj
      rw [List.mem_range] at hj
      simpa [dmap] using hrel i hi j hj
    rw [hk]
    simp [ttKeys]
  · have hk : encKey n bs = (key1 n b).reverse := by
      rw [key1_reverse]
      apply encKey_eq_of_rows
      intro i hi
      rw [rowOf, rowOf, reverse_map_range]
      apply List.map_congr_left
      intro j hj
      rw [List.mem_range] at hj
      simpa [dmap] using hrel i hi j hj
    rw [hk]
    simp [ttKeys]
  · have hk : encKey n bs = (key4 n b).reverse := by
      rw [key4_reverse]
      apply encKey_eq_of_rows
      intro i hi
      rw [rowOf, colOf]
      apply List.map_congr_left
      intro j hj
      rw [List.mem_range] at hj
      simpa [dmap] using hrel i hi j hj
    rw [hk]
    simp [ttKeys]
  · have hk : encKey n bs = key2 n b := by
      rw [key2_eq]
      apply encKey_eq_of_rows
      intro i hi
      rw [rowOf, rowOf, reverse_map_range]
      apply List.map_congr_left
      intro j hj
      rw [List.mem_range] at hj
      simpa [dmap] using hrel i hi j hj
    rw [hk]
    simp [ttKeys]
  · have hk : encKey n bs = key3 n b := by
      rw [key3_eq]
      apply encKey_eq_of_rows
      intro i hi
      rw [rowOf, colOf]
      apply List.map_congr_left
      intro j hj
      rw [List.mem_range] at hj
      simpa [dmap] using hrel i hi j hj
    rw [hk]
    simp [ttKeys]
  · have hk : encKey n bs = (key2 n b).reverse := by
      rw [key2_reverse]
      apply encKey_eq_of_rows
      intro i hi
      rw [rowOf, rowOf]
      apply List.map_congr_left
      intro j hj
      rw [List.mem_range] at hj
      simpa [dmap] using hrel i hi j hj
    rw [hk]
    simp [ttKeys]
  · have hk : encKey n bs = (key3 n b).reverse := by
      rw [key3_reverse]
      apply encKey_eq_of_rows
      intro i hi
      rw [rowOf, colOf, reverse_map_range]
      apply List.map_congr_left
      intro j hj
      rw [List.mem_range] at hj
      simpa [dmap] using hrel i hi j hj
    rw [hk]
    simp [ttKeys]

/-- Interior points are keys of the neighbor dict. -/
theorem ptN_mem_nonBorderPoints (n i j : Nat) (hi : i < n) (hj : j < n) :
    ptN n i j ∈ nonBorderPoints n := by
  rw [mem_nonBorderPoints]
  exact ⟨ptN_lt_size n i j hi hj, (initBoard_zero_iff n _).mpr ⟨i, hi, j, hj, rfl⟩⟩

/-- A grid row reads the board only at interior points. -/
theorem rowOf_congr (n : Nat) (b1 b2 : Board) (i : Nat) (hi : i < n)
    (h : ∀ p ∈ nonBorderPoints n, b1 p = b2 p) : rowOf n b1 i = rowOf n b2 i := by
  apply List.map_congr_left
  intro j hj
  exact h _ (ptN_mem_nonBorderPoints n i j hi (List.mem_range.mp hj))

/-- A grid column reads the board only at interior points. -/
theorem colOf_congr (n : Nat) (b1 b2 : Board) (i : Nat) (hi : i < n)
    (h : ∀ p ∈ nonBorderPoints n, b1 p = b2 p) : colOf n b1 i = colOf n b2 i := by
  apply List.map_congr_left
  intro j hj
  exact h _ (ptN_mem_nonBorderPoints n j i (List.mem_range.mp hj) hi)

/-- The exact-arrangement key depends only on the interior stones. -/
theorem encKey_congr (n : Nat) (b1 b2 : Board)
    (h : ∀ p ∈ nonBorderPoints n, b1 p = b2 p) : encKey n b1 = encKey n b2 := by
  apply List.map_congr_left
  intro p hp
  exact h p hp

/-- All eight `set_tt_entry` keys depend only on the interior stones. -/
theorem ttKeys_congr (n : Nat) (b1 b2 : Board)
    (h : ∀ p ∈ nonBorderPoints n, b1 p = b2 p) : ttKeys n b1 = ttKeys n b2 := by
  have hrow : ∀ i, i < n → rowOf n b1 i = rowOf n b2 i :=
    fun i hi => rowOf_congr n b1 b2 i hi h
  have hcol : ∀ i, i < n → colOf n b1 i = colOf n b2 i :=
    fun i hi => colOf_congr n b1 b2 i hi h
  have h1 : key1 n b1 = key1 n b2 := by
    rw [key1_eq, key1_eq]
    congr 1
    apply List.map_congr_left
    intro i hi
    exact hrow i (List.mem_range.mp hi)
  have h2 : key2 n b1 = key2 n b2 := by
    rw [key2_eq, key2_eq]
    congr 1
    apply List.map_congr_left
    intro i hi
    rw [hrow i (List.mem_range.mp hi)]
  have h3 : key3 n b1 = key3 n b2 := by
    rw [key3_eq, key3_eq]
    congr 1
    apply List.map_congr_left
    intro i hi
    exact hcol i (List.mem_range.mp hi)
  have h4 : key4 n b1 = key4 n b2 := by
    rw [key4_eq, key4_eq]
    congr 1
    apply List.map_congr_left
    intro i hi
    rw [hcol i (List.mem_range.mp hi)]
  simp [ttKeys, h1, h2, h3, h4]

/-- The lookup key of `get_tt_entry` is always among the eight keys that
`set_tt_entry` writes for the same arrangement (it is `key1`). -/
theorem encKey_mem_ttKeys (n : Nat) (b : Board) : encKey n b ∈ ttKeys n b := by
  rw [encKey_eq_key1]
  simp [ttKeys]

/-- C9: the transposition-table operations never read `current_player`: two
boards with the same size and the same interior stones but different players
to move produce the same exact-match key, the same lookup result on any
table, the same eight record keys, and the same table after a record. -/
theorem tt_ops_ignore_current_player (gb1 gb2 : GoBoardPy)
    (hsize : gb1.size = gb2.size)
    (hboard : ∀ p ∈ nonBorderPoints gb1.size, gb1.board p = gb2.board p)
    (_hcp : gb1.current_player ≠ gb2.current_player) :
    encKey gb1.size gb1.board = encKey gb2.size gb2.board ∧
    (∀ tt : TT, getTTEntry gb1.size gb1.board tt = getTTEntry gb2.size gb2.board tt) ∧
    ttKeys gb1.size gb1.board = ttKeys gb2.size gb2.board ∧
    (∀ c tt, setTTEntry gb1.size gb1.board c tt = setTTEntry gb2.size gb2.board c tt) := by
  rw [← hsize]
  have henc := encKey_congr gb1.size gb1.board gb2.board hboard
  have hkeys := ttKeys_congr gb1.size gb1.board gb2.board hboard
  refine ⟨henc, fun tt => ?_, hkeys, fun c tt => ?_⟩
  · rw [getTTEntry, getTTEntry, henc]
  · rw [setTTEntry, setTTEntry, hkeys]

/-- C10: two boards whose `tt` attribute is the shared default dict alias one
table: a record through the first is visible to a lookup through the second
whenever the two boards carry the same arrangement. -/
theorem default_tt_shared_across_boards (gb1 gb2 : GoBoardPy) (c : Nat) (w : World)
    (h1 : gb1.ttOwn = none) (h2 : gb2.ttOwn = none)
    (hsize : gb1.size = gb2.size)
    (hboard : ∀ p ∈ nonBorderPoints gb1.size, gb1.board p = gb2.board p) :
    getTTEntryB gb2 (setTTEntryB gb1 c w).2 = some c := by
  simp only [setTTEntryB, h1, getTTEntryB, ttOf, h2]
  rw [getTTEntry, setTTEntry, writeKeys_apply]
  have henc : encKey gb2.size gb2.board = key1 gb1.size gb1.board := by
    rw [← hsize, ← encKey_congr gb1.size gb1.board gb2.board hboard, encKey_eq_key1]
  rw [henc]
  simp [ttKeys]

/-- C5 (amended): `set_tt_entry` writes unconditionally, so after any record
each of its eight keys stores that record's winner, regardless of what the
table held before (last write wins, not append-only). -/
theorem tt_record_last_write_wins (n : Nat) (b : Board) (c : Nat) (tt : TT)
    (k : List Nat) (hk : k ∈ ttKeys n b) :
    setTTEntry n b c tt k = some c := by
  rw [setTTEntry, writeKeys_apply, if_pos hk]

/-- Witness for the last-write-wins record theorem at a concrete key. -/
theorem tt_record_last_write_wins_witness :
    encKey 2 (initBoard 2) ∈ ttKeys 2 (initBoard 2) ∧
    setTTEntry 2 (initBoard 2) 1 emptyTT (encKey 2 (initBoard 2)) = some 1 :=
  ⟨by decide, tt_record_last_write_wins 2 (initBoard 2) 1 emptyTT _ (by decide)⟩

/-- C5 (counterexample to the claim as stated): record WHITE for the empty
2 x 2 arrangement, then run the solver on that arrangement for WHITE with an
empty frontier and no timeout; the empty-frontier fallback records BLACK and
the very same key now stores BLACK instead of WHITE. -/
theorem tt_entry_overwritten_by_solver :
    setTTEntry 2 (initBoard 2) WHITE emptyTT (encKey 2 (initBoard 2)) = some WHITE ∧
    (runGetOutcome 2 (fun _ => false) WHITE []
        ⟨initBoard 2, setTTEntry 2 (initBoard 2) WHITE emptyTT, 0⟩).map
      (fun r => (r.1, r.2.tt (encKey 2 (initBoard 2)))) = some (none, some BLACK) :=
  ⟨by decide, by decide⟩

/-- C6: with the deadline not yet exceeded at entry, a solver call with an
empty frontier leaves the board unchanged, records the pre-move arrangement
as a win for the opponent, and returns no move. -/
theorem get_outcome_empty_frontier_loss (n : Nat) (oracle : Nat → Bool)
    (color : Nat) (st : SState) (h : oracle st.clock = false) :
    runGetOutcome n oracle color [] st =
      some (none, ⟨st.board, setTTEntry n st.board (3 - color) st.tt, st.clock + 1⟩) ∧
    getTTEntry n st.board (setTTEntry n st.board (3 - color) st.tt) = some (3 - color) := by
  constructor
  · rw [runGetOutcome]
    simp [getOutcome, h]
  · rw [getTTEntry, setTTEntry, writeKeys_apply,
      if_pos (encKey_mem_ttKeys n st.board)]

/-- Witness for the empty-frontier loss theorem at a concrete state. -/
theorem get_outcome_empty_frontier_loss_witness :
    (fun _ : Nat => false) 0 = false ∧
    (runGetOutcome 2 (fun _ => false) 1 [] ⟨initBoard 2, emptyTT, 0⟩ =
        some (none, ⟨initBoard 2, setTTEntry 2 (initBoard 2) (3 - 1) emptyTT, 0 + 1⟩) ∧
      getTTEntry 2 (initBoard 2) (setTTEntry 2 (initBoard 2) (3 - 1) emptyTT) =
        some (3 - 1)) :=
  ⟨rfl, get_outcome_empty_frontier_loss 2 (fun _ => false) 1 ⟨initBoard 2, emptyTT, 0⟩ rfl⟩

/-- C1: `is_legal` does not reject an occupied point: on a 3 x 3 board with a
Black stone at (2,2), `is_legal((2,2), BLACK)` returns true, not false. -/
theorem is_legal_true_on_occupied_point :
    (setPt (initBoard 3) (coordToPoint 2 2 3) BLACK) (coordToPoint 2 2 3) = BLACK ∧
    (isLegal 3 (setPt (initBoard 3) (coordToPoint 2 2 3) BLACK)
        (coordToPoint 2 2 3) BLACK).map Prod.fst = some true :=
  ⟨by decide, by decide⟩

/-- C2: `is_legal` is not side-effect-free on an occupied point: on a 3 x 3
board with a Black stone at (2,2), calling `is_legal((2,2), WHITE)` leaves
the cell EMPTY afterwards — the Black stone is erased. -/
theorem is_legal_erases_stone_on_occupied_point :
    (setPt (initBoard 3) (coordToPoint 2 2 3) BLACK) (coordToPoint 2 2 3) = BLACK ∧
    (isLegal 3 (setPt (initBoard 3) (coordToPoint 2 2 3) BLACK)
        (coordToPoint 2 2 3) WHITE).map (fun r => r.2 (coordToPoint 2 2 3)) =
      some EMPTY :=
  ⟨by decide, by decide⟩

/-- C7 (counterexample to the claim as stated): with White at (1,2) and (2,1)
on a 3 x 3 board, the point (2,2) is the center and still has the empty
neighbors (2,3) and (3,2), so `is_legal((2,2), BLACK)` is true, not false. -/
theorem is_legal_center_true_with_two_white :
    (isLegal 3
        (setPt (setPt (initBoard 3) (coordToPoint 1 2 3) WHITE)
          (coordToPoint 2 1 3) WHITE)
        (coordToPoint 2 2 3) BLACK).map Prod.fst = some true := by
  decide

/-- C7 (amended): with White at (1,2) and (2,1) on a 3 x 3 board, the corner
(1,1) — the point whose only two non-border neighbors are (1,2) and (2,1) —
is pure suicide for Black: `is_legal((1,1), BLACK)` is false. -/
theorem is_legal_corner_suicide_false :
    (isLegal 3
        (setPt (setPt (initBoard 3) (coordToPoint 1 2 3) WHITE)
          (coordToPoint 2 1 3) WHITE)
        (coordToPoint 1 1 3) BLACK).map Prod.fst = some false := by
  decide

/-- C8: with Black at (1,1) and White at (2,1) on a 3 x 3 board, playing
White at (1,2) would leave the Black group with zero liberties, an illegal
capture: `is_legal((1,2), WHITE)` is false. -/
theorem is_legal_capture_false :
    (isLegal 3
        (setPt (setPt (initBoard 3) (coordToPoint 1 1 3) BLACK)
          (coordToPoint 2 1 3) WHITE)
        (coordToPoint 1 2 3) WHITE).map Prod.fst = some false := by
  decide

/-- On an EMPTY non-border point `is_legal` always returns normally and hands
back the exact original board array: the tentative write is reverted on
every return path. -/
theorem isLegal_restore (n : Nat) (b : Board) (p c : Nat)
    (hp : p ∈ nonBorderPoints n) (he : b p = EMPTY) :
    ∃ r : Bool, isLegal n b p c = some (r, b) := by
  rw [mem_nonBorderPoints] at hp
  have hd : nonBorderNbrs n p = some (nbrsOf n p) := by
    rw [nonBorderNbrs, if_pos (And.intro hp.1 hp.2)]
  have hres : setPt (setPt b p c) p EMPTY = b := setPt_restore b p c he
  rw [isLegal, hd]
  simp only [hres]
  split_ifs <;> exact ⟨_, rfl⟩

/-- One solver-loop iteration preserves the invariant: legality checks
restore the board, a played stone is undone on every branch, and recursive
calls (assumed board-preserving) are bracketed by play/undo. -/
theorem outcomeStep_boardKept (n color : Nat) (frontier : List Nat) (b0 : Board)
    (child : List Nat → SState → Option (Option Nat × SState))
    (hchild : ∀ f s, (∀ p ∈ f, p ∈ nonBorderPoints n ∧ s.board p = EMPTY) → f.Nodup →
      f.length < frontier.length →
      ∃ r s2, child f s = some (r, s2) ∧ s2.board = s.board)
    (hfr : ∀ p ∈ frontier, p ∈ nonBorderPoints n ∧ b0 p = EMPTY)
    (hnd : frontier.Nodup)
    (mv : Nat) (hmv : mv ∈ frontier)
    (acc : SState ⊕ Option (Option Nat × SState)) (hacc : boardKept b0 acc) :
    boardKept b0 (outcomeStep n color frontier child acc mv) := by
  match acc with
  | .inr none => exact absurd hacc (by simp [boardKept])
  | .inr (some r) => exact hacc
  | .inl s =>
    have hsb : s.board = b0 := hacc
    obtain ⟨hmemv, hempv⟩ := hfr mv hmv
    have hemps : s.board mv = EMPTY := by rw [hsb]; exact hempv
    obtain ⟨legal, hleg⟩ := isLegal_restore n s.board mv color hmemv hemps
    rw [outcomeStep, hleg]
    have hb3 : setPt (setPt s.board mv color) mv EMPTY = s.board :=
      setPt_restore _ _ _ hemps
    by_cases hl : legal
    case neg =>
      simp only [hl, Bool.false_eq_true, if_false]
      exact hsb
    case pos =>
      simp only [hl, if_true]
      cases htt : getTTEntry n (setPt s.board mv color) s.tt with
      | some w =>
        by_cases hw : w = color
        · simp only [htt, hw, if_pos rfl]
          show setPt (setPt s.board mv color) mv EMPTY = b0
          rw [hb3, hsb]
        · simp only [htt, if_neg hw]
          show setPt (setPt s.board mv color) mv EMPTY = b0
          rw [hb3, hsb]
      | none =>
        have hlen : (frontier.erase mv).length < frontier.length := by
          rw [List.length_erase_of_mem hmv]
          have : 0 < frontier.length := List.length_pos_of_mem hmv
          omega
        have hmems : ∀ p ∈ frontier.erase mv,
            p ∈ nonBorderPoints n ∧ (setPt s.board mv color) p = EMPTY := by
          intro p hpe
          rw [hnd.mem_erase_iff] at hpe
          obtain ⟨hpne, hpf⟩ := hpe
          obtain ⟨hpm, hpe0⟩ := hfr p hpf
          refine ⟨hpm, ?_⟩
          rw [setPt_ne _ _ _ _ hpne, hsb]
          exact hpe0
        obtain ⟨r2, s2, hcall, hs2⟩ :=
          hchild (frontier.erase mv) ⟨setPt s.board mv color, s.tt, s.clock⟩
            hmems (hnd.erase mv) hlen
        simp only [htt, hcall]
        have hs2b : setPt s2.board mv EMPTY = b0 := by
          show setPt s2.board mv EMPTY = b0
          rw [hs2]
          show setPt (setPt s.board mv color) mv EMPTY = b0
          rw [hb3, hsb]
        cases htt2 : getTTEntry n s2.board s2.tt with
        | none => exact hs2b
        | some w2 =>
          by_cases hw0 : w2 = 0
          · simp only [hw0, if_pos rfl]
            exact hs2b
          · by_cases hwc : w2 = color
            · subst hwc
              simp only [if_neg hw0, if_pos rfl]
              exact hs2b
            · simp only [if_neg hw0, if_neg hwc]
              exact hs2b

/-- The whole `for move in empty_points` loop preserves the invariant. -/
theorem foldl_boardKept (n color : Nat) (frontier : List Nat) (b0 : Board)
    (child : List Nat → SState → Option (Option Nat × SState))
    (hchild : ∀ f s, (∀ p ∈ f, p ∈ nonBorderPoints n ∧ s.board p = EMPTY) → f.Nodup →
      f.length < frontier.length →
      ∃ r s2, child f s = some (r, s2) ∧ s2.board = s.board)
    (hfr : ∀ p ∈ frontier, p ∈ nonBorderPoints n ∧ b0 p = EMPTY)
    (hnd : frontier.Nodup) :
    ∀ l : List Nat, (∀ x ∈ l, x ∈ frontier) →
      ∀ acc, boardKept b0 acc →
        boardKept b0 (l.foldl (outcomeStep n color frontier child) acc) := by
  intro l
  induction l with
  | nil => intro _ acc hacc; exact hacc
  | cons x l ih =>
    intro hx acc hacc
    rw [List.foldl_cons]
    exact ih (fun y hy => hx y (List.mem_cons_of_mem _ hy)) _
      (outcomeStep_boardKept n color frontier b0 child hchild hfr hnd x
        (hx x (List.mem_cons_self _ _)) acc hacc)

/-- With enough fuel, any `get_outcome` call on a duplicate-free frontier of
EMPTY non-border points returns normally and restores the board array
exactly, whatever the time oracle does. -/
theorem getOutcome_board_restored (n : Nat) (oracle : Nat → Bool) :
    ∀ fuel color frontier st, frontier.length < fuel →
      (∀ p ∈ frontier, p ∈ nonBorderPoints n ∧ st.board p = EMPTY) →
      frontier.Nodup →
      ∃ r st2, getOutcome n oracle fuel color frontier st = some (r, st2) ∧
        st2.board = st.board := by
  intro fuel
  induction fuel with
  | zero => intro color frontier st hlen _ _; exact absurd hlen (by omega)
  | succ fuel ih =>
    intro color frontier st hlen hmem hnd
    rw [getOutcome]
    by_cases ho : oracle st.clock
    · rw [if_pos ho]
      exact ⟨none, ⟨st.board, st.tt, st.clock + 1⟩, rfl, rfl⟩
    · rw [if_neg ho]
      have hfold := foldl_boardKept n color frontier st.board
        (fun f s => getOutcome n oracle fuel (3 - color) f s)
        (fun f s hm hn hl => ih (3 - color) f s (by omega) hm hn)
        hmem hnd frontier (fun x hx => hx)
        (.inl ⟨st.board, st.tt, st.clock + 1⟩) rfl
      cases hres : frontier.foldl
          (outcomeStep n color frontier
            (fun f s => getOutcome n oracle fuel (3 - color) f s))
          (.inl ⟨st.board, st.tt, st.clock + 1⟩) with
      | inl sEnd =>
        rw [hres] at hfold
        exact ⟨none, _, rfl, hfold⟩
      | inr r =>
        rw [hres] at hfold
        match r, hfold with
        | some (mv, s'), h => exact ⟨mv, s', rfl, h⟩

/-- C4: after any solver call — winning move, recorded loss, or timeout —
the board array is identical, entry for entry, to the board array before
the call. -/
theorem get_outcome_preserves_board (n : Nat) (oracle : Nat → Bool) (color : Nat)
    (frontier : List Nat) (st : SState)
    (hmem : ∀ p ∈ frontier, p ∈ nonBorderPoints n ∧ st.board p = EMPTY)
    (hnd : frontier.Nodup) :
    ∃ r st2, runGetOutcome n oracle color frontier st = some (r, st2) ∧
      st2.board = st.board :=
  getOutcome_board_restored n oracle (frontier.length + 1) color frontier st
    (by omega) hmem hnd

/-- Witness for the solver frame theorem at a concrete one-point frontier. -/
theorem get_outcome_preserves_board_witness :
    (∀ p ∈ [coordToPoint 1 1 2], p ∈ nonBorderPoints 2 ∧ initBoard 2 p = EMPTY) ∧
    ([coordToPoint 1 1 2] : List Nat).Nodup ∧
    ∃ r st2, runGetOutcome 2 (fun _ => false) 1 [coordToPoint 1 1 2]
        ⟨initBoard 2, emptyTT, 0⟩ = some (r, st2) ∧ st2.board = initBoard 2 :=
  ⟨by decide, by decide,
    get_outcome_preserves_board 2 (fun _ => false) 1 [coordToPoint 1 1 2]
      ⟨initBoard 2, emptyTT, 0⟩ (by decide) (by decide)⟩

/-- Witness for the symmetry theorem: a single Black stone on a 2 x 2 board,
rotated by 90 degrees, is found in the table under the rotated arrangement. -/
theorem tt_symmetric_lookup_after_record_witness :
    ((1 : Nat) < 8 ∧ ∀ i, i < 2 → ∀ j, j < 2 →
      (setPt (initBoard 2) (ptN 2 0 1) BLACK) (ptN 2 i j) =
        (setPt (initBoard 2) (ptN 2 0 0) BLACK)
          (ptN 2 (dmap 2 1 i j).1 (dmap 2 1 i j).2)) ∧
    getTTEntry 2 (setPt (initBoard 2) (ptN 2 0 1) BLACK)
      (setTTEntry 2 (setPt (initBoard 2) (ptN 2 0 0) BLACK) WHITE emptyTT) =
      some WHITE :=
  ⟨⟨by decide, by decide⟩,
    tt_symmetric_lookup_after_record 2 (setPt (initBoard 2) (ptN 2 0 0) BLACK)
      (setPt (initBoard 2) (ptN 2 0 1) BLACK) WHITE emptyTT 1 (by decide) (by decide)⟩

/-- Witness for the current-player noninterference theorem: two fresh 2 x 2
boards that differ only in the player to move. -/
theorem tt_ops_ignore_current_player_witness :
    ((mkGoBoard 2).current_player ≠
      ({ mkGoBoard 2 with current_player := WHITE } : GoBoardPy).current_player) ∧
    (encKey (mkGoBoard 2).size (mkGoBoard 2).board =
        encKey ({ mkGoBoard 2 with current_player := WHITE } : GoBoardPy).size
          ({ mkGoBoard 2 with current_player := WHITE } : GoBoardPy).board ∧
      (∀ tt : TT, getTTEntry (mkGoBoard 2).size (mkGoBoard 2).board tt =
        getTTEntry ({ mkGoBoard 2 with current_player := WHITE } : GoBoardPy).size
          ({ mkGoBoard 2 with current_player := WHITE } : GoBoardPy).board tt) ∧
      ttKeys (mkGoBoard 2).size (mkGoBoard 2).board =
        ttKeys ({ mkGoBoard 2 with current_player := WHITE } : GoBoardPy).size
          ({ mkGoBoard 2 with current_player := WHITE } : GoBoardPy).board ∧
      (∀ c tt, setTTEntry (mkGoBoard 2).size (mkGoBoard 2).board c tt =
        setTTEntry ({ mkGoBoard 2 with current_player := WHITE } : GoBoardPy).size
          ({ mkGoBoard 2 with current_player := WHITE } : GoBoardPy).board c tt)) :=
  ⟨by decide,
    tt_ops_ignore_current_player (mkGoBoard 2)
      { mkGoBoard 2 with current_player := WHITE } rfl (fun _ _ => rfl) (by decide)⟩

/-- Witness for the shared-default-table theorem: a fresh `GoBoard(2)` and
its `copy()` see each other's records. -/
theorem default_tt_shared_across_boards_witness :
    ((mkGoBoard 2).ttOwn = none ∧ (copyB (mkGoBoard 2)).ttOwn = none) ∧
    getTTEntryB (copyB (mkGoBoard 2))
      ((setTTEntryB (mkGoBoard 2) BLACK ⟨emptyTT⟩).2) = some BLACK :=
  ⟨⟨rfl, rfl⟩,
    default_tt_shared_across_boards (mkGoBoard 2) (copyB (mkGoBoard 2)) BLACK
      ⟨emptyTT⟩ rfl rfl rfl (fun _ _ => rfl)⟩
